import Mathlib

/-!
Verification of the iSpend expense-tracking backend's aggregation engine.

The store (MongoDB collection `ispend.spends`) is modelled as a list of
entries in insertion order together with a counter supplying fresh ids.
The three aggregation pipelines of `utils.py` (`read_expenses`,
`read_stats`, `read_history`) are embedded as list programs over this
model: `$match` is `List.filter`, `$sort` is a stable insertion sort,
`$group`/`$push` collects documents per key in stream order, `$slice`
truncates, and the FastAPI endpoint handlers of `main.py` wrap them.
-/

/-- The closed category enumeration (`CategoryName` in `main.py`). -/
inductive Category
  | car
  | insurance
  | food
  | hobbies
  | home
  | other
deriving DecidableEq, Repr, Fintype

/-- The string value stored in MongoDB for each category
(the `str`-enum values of `CategoryName`). -/
def Category.str : Category → String
  | car => "Car"
  | insurance => "Insurance"
  | food => "Food"
  | hobbies => "Hobbies"
  | home => "Home"
  | other => "Other"

/-- Lexicographic order on lists of character codes: how MongoDB compares
the stored category strings when `$sort`-ing by `expense.category`. -/
def charListLt : List Char → List Char → Bool
  | [], [] => false
  | [], _ :: _ => true
  | _ :: _, [] => false
  | a :: as, b :: bs =>
      decide (a.toNat < b.toNat) || (a.toNat == b.toNat && charListLt as bs)

/-- String comparison used by the store when sorting by category value. -/
def strLtB (a b : String) : Bool := charListLt a.data b.data

/-- Category order as the store sees it: by the stored string value. -/
def catLtB (a b : Category) : Bool := strLtB a.str b.str

/-- Non-strict category order by stored string value. -/
def catLeB (a b : Category) : Bool := catLtB a b || a == b

/-- A calendar date (Python `datetime.date`). Components kept as
integers; validity is a separate predicate. -/
structure Date where
  year : Int
  month : Int
  day : Int
deriving DecidableEq, Repr

/-- Strict lexicographic order on calendar dates. -/
def Date.lt (a b : Date) : Prop :=
  a.year < b.year ∨ (a.year = b.year ∧
    (a.month < b.month ∨ (a.month = b.month ∧ a.day < b.day)))

/-- Non-strict order on calendar dates. -/
def Date.le (a b : Date) : Prop := Date.lt a b ∨ a = b

instance (a b : Date) : Decidable (Date.lt a b) := by
  unfold Date.lt; exact inferInstance

instance (a b : Date) : Decidable (Date.le a b) := by
  unfold Date.le; exact inferInstance

/-- A UTC instant as stored in MongoDB: a calendar date plus a
seconds-of-day component (the code only ever stores 00:00:00 and
compares against 00:00:00 / 23:59:59 bounds). -/
structure DateTime where
  d : Date
  secs : Int
deriving DecidableEq, Repr

/-- Strict order on stored instants. -/
def DateTime.lt (a b : DateTime) : Prop :=
  Date.lt a.d b.d ∨ (a.d = b.d ∧ a.secs < b.secs)

/-- Non-strict order on stored instants. -/
def DateTime.le (a b : DateTime) : Prop := DateTime.lt a b ∨ a = b

instance (a b : DateTime) : Decidable (DateTime.lt a b) := by
  unfold DateTime.lt; exact inferInstance

instance (a b : DateTime) : Decidable (DateTime.le a b) := by
  unfold DateTime.le; exact inferInstance

theorem Date.lt_iff (a b : Date) :
    Date.lt a b ↔ a.year < b.year ∨ (a.year = b.year ∧
      (a.month < b.month ∨ (a.month = b.month ∧ a.day < b.day))) := Iff.rfl

theorem Date.eq_iff (a b : Date) :
    a = b ↔ a.year = b.year ∧ a.month = b.month ∧ a.day = b.day := by
  cases a; cases b; simp

theorem date_lt_trans {a b c : Date} (h₁ : Date.lt a b) (h₂ : Date.lt b c) :
    Date.lt a c := by
  cases a; cases b; cases c
  simp only [Date.lt_iff] at *
  omega

theorem date_lt_asymm {a b : Date} (h : Date.lt a b) : ¬ Date.lt b a := by
  cases a; cases b
  simp only [Date.lt_iff] at *
  omega

theorem date_lt_trichotomy (a b : Date) :
    Date.lt a b ∨ a = b ∨ Date.lt b a := by
  cases a; cases b
  simp only [Date.lt_iff, Date.eq_iff] at *
  omega

theorem DateTime.lt_trans {a b c : DateTime}
    (h₁ : DateTime.lt a b) (h₂ : DateTime.lt b c) : DateTime.lt a c := by
  rcases h₁ with h₁ | ⟨e₁, s₁⟩ <;> rcases h₂ with h₂ | ⟨e₂, s₂⟩
  · exact Or.inl (date_lt_trans h₁ h₂)
  · exact Or.inl (e₂ ▸ h₁)
  · exact Or.inl (e₁ ▸ h₂)
  · exact Or.inr ⟨e₁.trans e₂, s₁.trans s₂⟩

theorem DateTime.lt_irrefl (a : DateTime) : ¬ DateTime.lt a a := by
  rintro (h | ⟨_, s⟩)
  · exact date_lt_asymm h h
  · omega

theorem DateTime.lt_asymm {a b : DateTime} (h : DateTime.lt a b) :
    ¬ DateTime.lt b a :=
  fun h' => DateTime.lt_irrefl a (DateTime.lt_trans h h')

theorem DateTime.lt_trichotomy (a b : DateTime) :
    DateTime.lt a b ∨ a = b ∨ DateTime.lt b a := by
  obtain ⟨ad, as⟩ := a; obtain ⟨bd, bs⟩ := b
  rcases date_lt_trichotomy ad bd with h | h | h
  · exact Or.inl (Or.inl h)
  · subst h
    rcases Int.lt_trichotomy as bs with s | s | s
    · exact Or.inl (Or.inr ⟨rfl, s⟩)
    · subst s; exact Or.inr (Or.inl rfl)
    · exact Or.inr (Or.inr (Or.inr ⟨rfl, s⟩))
  · exact Or.inr (Or.inr (Or.inl h))

theorem DateTime.le_total (a b : DateTime) :
    DateTime.le a b ∨ DateTime.le b a := by
  rcases DateTime.lt_trichotomy a b with h | h | h
  · exact Or.inl (Or.inl h)
  · exact Or.inl (Or.inr h)
  · exact Or.inr (Or.inl h)

theorem DateTime.le_trans {a b c : DateTime}
    (h₁ : DateTime.le a b) (h₂ : DateTime.le b c) : DateTime.le a c := by
  rcases h₁ with h₁ | rfl
  · rcases h₂ with h₂ | rfl
    · exact Or.inl (DateTime.lt_trans h₁ h₂)
    · exact Or.inl h₁
  · exact h₂

theorem DateTime.le_antisymm {a b : DateTime}
    (h₁ : DateTime.le a b) (h₂ : DateTime.le b a) : a = b := by
  rcases h₁ with h₁ | rfl
  · rcases h₂ with h₂ | rfl
    · exact absurd h₂ (DateTime.lt_asymm h₁)
    · rfl
  · rfl

example : Date.lt ⟨2024, 2, 29⟩ ⟨2024, 3, 1⟩ := by decide
example : DateTime.le ⟨⟨2024, 3, 10⟩, 0⟩ ⟨⟨2024, 3, 10⟩, 86399⟩ := by decide
example : ((9 : ℚ)/2 + 1/2 = 5) := by norm_num
example : catLtB Category.car Category.food = true := by decide
example : ∀ a b c : Category,
    catLtB a b → catLtB b c → catLtB a c = true := by decide

/-! ### A stable sort, modelling MongoDB's `$sort` stage

`$sort` is modelled as a stable insertion sort over the stream in its
incoming (insertion) order: documents that compare equal keep their
relative order. -/

/-- Insert `x` after every element `y` with `le y x` (stable insertion). -/
def insertStable {α : Type} (le : α → α → Bool) (x : α) : List α → List α
  | [] => [x]
  | y :: ys => if le y x then y :: insertStable le x ys else x :: y :: ys

/-- Stable sort by the boolean comparator `le`. -/
def sortLe {α : Type} (le : α → α → Bool) (xs : List α) : List α :=
  xs.foldl (fun acc x => insertStable le x acc) []

theorem insertStable_perm {α : Type} (le : α → α → Bool) (x : α)
    (l : List α) : (insertStable le x l).Perm (x :: l) := by
  induction l with
  | nil => simp [insertStable]
  | cons y ys ih =>
    unfold insertStable
    by_cases h : le y x = true
    · simp only [h, if_true]
      exact (ih.cons y).trans (List.Perm.swap x y ys)
    · simp only [h]
      simp

theorem mem_insertStable {α : Type} {le : α → α → Bool} {x a : α}
    {l : List α} : a ∈ insertStable le x l ↔ a = x ∨ a ∈ l := by
  rw [(insertStable_perm le x l).mem_iff]
  simp

theorem foldl_insertStable_perm {α : Type} (le : α → α → Bool) :
    ∀ (l acc : List α),
      (l.foldl (fun acc x => insertStable le x acc) acc).Perm (acc ++ l) := by
  intro l
  induction l with
  | nil => simp
  | cons x xs ih =>
    intro acc
    simp only [List.foldl_cons]
    have h1 := ih (insertStable le x acc)
    have h2 : (insertStable le x acc ++ xs).Perm ((x :: acc) ++ xs) :=
      (insertStable_perm le x acc).append_right xs
    have h3 : ((x :: acc) ++ xs).Perm (acc ++ x :: xs) := by
      simpa using List.perm_middle.symm
    exact (h1.trans h2).trans h3

theorem sortLe_perm {α : Type} (le : α → α → Bool) (l : List α) :
    (sortLe le l).Perm l := by
  simpa using foldl_insertStable_perm le l []

theorem insertStable_pairwise {α : Type} {le : α → α → Bool}
    (total : ∀ a b, le a b = true ∨ le b a = true)
    (htrans : ∀ a b c, le a b = true → le b c = true → le a c = true)
    (x : α) {l : List α} (hl : l.Pairwise (fun a b => le a b = true)) :
    (insertStable le x l).Pairwise (fun a b => le a b = true) := by
  induction l with
  | nil => simp [insertStable]
  | cons y ys ih =>
    obtain ⟨hy, hys⟩ := List.pairwise_cons.mp hl
    unfold insertStable
    by_cases h : le y x = true
    · simp only [h, if_true]
      refine List.pairwise_cons.mpr ⟨?_, ih hys⟩
      intro b hb
      rcases mem_insertStable.mp hb with rfl | hb'
      · exact h
      · exact hy b hb'
    · simp only [h]
      simp only [Bool.false_eq_true, if_false]
      have hxy : le x y = true := (total x y).resolve_right h
      refine List.pairwise_cons.mpr ⟨?_, hl⟩
      intro b hb
      rcases List.mem_cons.mp hb with rfl | hb'
      · exact hxy
      · exact htrans x y b hxy (hy b hb')

theorem sortLe_pairwise {α : Type} {le : α → α → Bool}
    (total : ∀ a b, le a b = true ∨ le b a = true)
    (htrans : ∀ a b c, le a b = true → le b c = true → le a c = true)
    (l : List α) : (sortLe le l).Pairwise (fun a b => le a b = true) := by
  suffices h : ∀ (l acc : List α),
      acc.Pairwise (fun a b => le a b = true) →
      (l.foldl (fun acc x => insertStable le x acc) acc).Pairwise
        (fun a b => le a b = true) from h l [] (List.Pairwise.nil)
  intro l
  induction l with
  | nil => intro acc hacc; simpa using hacc
  | cons x xs ih =>
    intro acc hacc
    simp only [List.foldl_cons]
    exact ih _ (insertStable_pairwise total htrans x hacc)

/-- The relation that pins down the output of a stable descending-or-
ascending sort on a stream whose `tag`s (insertion ids) are strictly
increasing: consecutive outputs are ordered by `le`, and where both
`le`-directions hold (a sort-key tie) the tags stay in stream order. -/
def stableRel {α : Type} (le : α → α → Bool) (tag : α → Nat) (a b : α) :
    Prop :=
  le a b = true ∧ (le b a = true → tag a < tag b)

theorem insertStable_pairwise_tag {α : Type} {le : α → α → Bool}
    {tag : α → Nat}
    (total : ∀ a b, le a b = true ∨ le b a = true)
    (htrans : ∀ a b c, le a b = true → le b c = true → le a c = true)
    (x : α) {l : List α} (hl : l.Pairwise (stableRel le tag))
    (hx : ∀ a ∈ l, tag a < tag x) :
    (insertStable le x l).Pairwise (stableRel le tag) := by
  induction l with
  | nil => simp [insertStable]
  | cons y ys ih =>
    obtain ⟨hy, hys⟩ := List.pairwise_cons.mp hl
    unfold insertStable
    by_cases h : le y x = true
    · simp only [h, if_true]
      refine List.pairwise_cons.mpr
        ⟨?_, ih hys (fun a ha => hx a (List.mem_cons_of_mem y ha))⟩
      intro b hb
      rcases mem_insertStable.mp hb with rfl | hb'
      · exact ⟨h, fun _ => hx y (List.mem_cons_self y ys)⟩
      · exact hy b hb'
    · simp only [h]
      simp only [Bool.false_eq_true, if_false]
      have hxy : le x y = true := (total x y).resolve_right h
      refine List.pairwise_cons.mpr ⟨?_, hl⟩
      intro b hb
      rcases List.mem_cons.mp hb with rfl | hb'
      · exact ⟨hxy, fun hyx => absurd hyx h⟩
      · refine ⟨htrans x y b hxy (hy b hb').1, fun hbx => absurd ?_ h⟩
        exact htrans y b x (hy b hb').1 hbx

theorem sortLe_pairwise_stable {α : Type} {le : α → α → Bool}
    {tag : α → Nat}
    (total : ∀ a b, le a b = true ∨ le b a = true)
    (htrans : ∀ a b c, le a b = true → le b c = true → le a c = true)
    (l : List α) (hl : l.Pairwise (fun a b => tag a < tag b)) :
    (sortLe le l).Pairwise (stableRel le tag) := by
  suffices h : ∀ (l acc : List α),
      acc.Pairwise (stableRel le tag) →
      (∀ a ∈ acc, ∀ b ∈ l, tag a < tag b) →
      l.Pairwise (fun a b => tag a < tag b) →
      (l.foldl (fun acc x => insertStable le x acc) acc).Pairwise
        (stableRel le tag) by
    exact h l [] List.Pairwise.nil (by simp) hl
  intro l
  induction l with
  | nil => intro acc hacc _ _; simpa using hacc
  | cons x xs ih =>
    intro acc hacc hcross hl
    obtain ⟨hx, hxs⟩ := List.pairwise_cons.mp hl
    simp only [List.foldl_cons]
    refine ih _ ?_ ?_ hxs
    · exact insertStable_pairwise_tag total htrans x hacc
        (fun a ha => hcross a ha x (List.mem_cons_self x xs))
    · intro a ha b hb
      rcases mem_insertStable.mp ha with rfl | ha'
      · exact hx b hb
      · exact hcross a ha' b (List.mem_cons_of_mem x hb)

/-! ### Grouping, modelling MongoDB's `$group` with `$push`

`$group` is modelled deterministically over the incoming stream: a group
is opened at the first occurrence of each key (so output groups appear
in first-occurrence order) and `$push` appends each document to its
group's list in stream order. -/

/-- Route one document into the accumulator's group for key `k`,
opening a new group at the end if the key is new. -/
def insertGroup {κ α : Type} [DecidableEq κ] (k : κ) (x : α) :
    List (κ × List α) → List (κ × List α)
  | [] => [(k, [x])]
  | g :: gs => if g.1 = k then (g.1, g.2 ++ [x]) :: gs
               else g :: insertGroup k x gs

/-- Fold the stream into groups (MongoDB `$group` + `$push`). -/
def groupPush {κ α : Type} [DecidableEq κ] (key : α → κ) (xs : List α) :
    List (κ × List α) :=
  xs.foldl (fun acc x => insertGroup (key x) x acc) []

/-- First-match association lookup over the group accumulator. -/
def lookupG {κ α : Type} [DecidableEq κ] (k : κ) :
    List (κ × List α) → Option (List α)
  | [] => none
  | g :: gs => if g.1 = k then some g.2 else lookupG k gs

theorem keys_insertGroup_mem {κ α : Type} [DecidableEq κ] {k : κ} (x : α)
    {l : List (κ × List α)} (h : k ∈ l.map Prod.fst) :
    (insertGroup k x l).map Prod.fst = l.map Prod.fst := by
  induction l with
  | nil => simp at h
  | cons g gs ih =>
    unfold insertGroup
    by_cases hg : g.1 = k
    · simp [hg]
    · have hk : k ∈ gs.map Prod.fst := by
        rw [List.map_cons, List.mem_cons] at h
        rcases h with he | he
        · exact absurd he.symm hg
        · exact he
      simp [hg, ih hk]

theorem keys_insertGroup_new {κ α : Type} [DecidableEq κ] {k : κ} (x : α)
    {l : List (κ × List α)} (h : k ∉ l.map Prod.fst) :
    (insertGroup k x l).map Prod.fst = l.map Prod.fst ++ [k] := by
  induction l with
  | nil => simp [insertGroup]
  | cons g gs ih =>
    have hg : ¬ g.1 = k := by
      intro he; exact h (by simp [he])
    have hk : k ∉ gs.map Prod.fst := by
      intro he; exact h (by simp [he])
    unfold insertGroup
    simp [hg, ih hk]

theorem lookupG_insertGroup_self {κ α : Type} [DecidableEq κ] (k : κ)
    (x : α) (l : List (κ × List α)) :
    lookupG k (insertGroup k x l) =
      some ((lookupG k l).getD [] ++ [x]) := by
  induction l with
  | nil => simp [insertGroup, lookupG]
  | cons g gs ih =>
    unfold insertGroup
    by_cases h : g.1 = k
    · simp [lookupG, h]
    · simp [lookupG, h, ih]

theorem lookupG_insertGroup_other {κ α : Type} [DecidableEq κ]
    {k k' : κ} (hne : k' ≠ k) (x : α) (l : List (κ × List α)) :
    lookupG k' (insertGroup k x l) = lookupG k' l := by
  induction l with
  | nil =>
    have : ¬ k = k' := fun h => hne h.symm
    simp [insertGroup, lookupG, this]
  | cons g gs ih =>
    unfold insertGroup
    by_cases h : g.1 = k
    · rw [if_pos h]
      have h2 : ¬ g.1 = k' := fun hh => hne (hh.symm.trans h)
      simp only [lookupG]
      rw [if_neg h2, if_neg h2]
    · rw [if_neg h]
      simp only [lookupG]
      by_cases h' : g.1 = k'
      · rw [if_pos h', if_pos h']
      · rw [if_neg h', if_neg h', ih]

theorem lookupG_groupPush {κ α : Type} [DecidableEq κ] (key : α → κ)
    (xs : List α) (k : κ) :
    lookupG k (groupPush key xs) =
      (if (xs.filter (fun a => decide (key a = k))).isEmpty then none
       else some (xs.filter (fun a => decide (key a = k)))) := by
  suffices h : ∀ (l : List α) (acc : List (κ × List α)) (p : List α),
      (∀ k, lookupG k acc =
        (if (p.filter (fun a => decide (key a = k))).isEmpty then none
         else some (p.filter (fun a => decide (key a = k))))) →
      ∀ k, lookupG k (l.foldl (fun acc x => insertGroup (key x) x acc) acc)
        = (if ((p ++ l).filter (fun a => decide (key a = k))).isEmpty
           then none
           else some ((p ++ l).filter (fun a => decide (key a = k)))) by
    have := h xs [] [] (by intro k; simp [lookupG]) k
    simpa [groupPush] using this
  intro l
  induction l with
  | nil => intro acc p hp k; simpa using hp k
  | cons x xs ih =>
    intro acc p hp k
    simp only [List.foldl_cons]
    have step : ∀ k', lookupG k' (insertGroup (key x) x acc) =
        (if ((p ++ [x]).filter (fun a => decide (key a = k'))).isEmpty
         then none
         else some ((p ++ [x]).filter (fun a => decide (key a = k')))) := by
      intro k'
      by_cases hk : k' = key x
      · subst hk
        rw [lookupG_insertGroup_self]
        have hf : (p ++ [x]).filter (fun a => decide (key a = key x)) =
            p.filter (fun a => decide (key a = key x)) ++ [x] := by
          rw [List.filter_append]
          simp
        rw [hf, hp (key x)]
        by_cases he : (p.filter (fun a => decide (key a = key x))).isEmpty
        · rw [List.isEmpty_iff] at he
          simp [he]
        · simp [he]
      · rw [lookupG_insertGroup_other hk]
        have hf : (p ++ [x]).filter (fun a => decide (key a = k')) =
            p.filter (fun a => decide (key a = k')) := by
          rw [List.filter_append]
          have hx0 : (decide (key x = k')) = false := by
            rw [decide_eq_false_iff_not]
            intro hkx
            exact hk hkx.symm
          simp [hx0]
        rw [hf, hp k']
    have := ih (insertGroup (key x) x acc) (p ++ [x]) step k
    simpa using this

theorem groupPush_keys_ordered {κ α : Type} [DecidableEq κ]
    (key : α → κ) (S : κ → κ → Prop) (xs : List α)
    (hxs : xs.Pairwise (fun a b => key a ≠ key b → S (key a) (key b))) :
    ((groupPush key xs).map Prod.fst).Pairwise S := by
  suffices h : ∀ (l : List α) (acc : List (κ × List α)),
      (acc.map Prod.fst).Pairwise S →
      (∀ k ∈ acc.map Prod.fst, ∀ b ∈ l, key b ≠ k → S k (key b)) →
      l.Pairwise (fun a b => key a ≠ key b → S (key a) (key b)) →
      (((l.foldl (fun acc x => insertGroup (key x) x acc) acc)).map
        Prod.fst).Pairwise S by
    exact h xs [] List.Pairwise.nil (by simp) hxs
  intro l
  induction l with
  | nil => intro acc hacc _ _; simpa using hacc
  | cons x xs ih =>
    intro acc hacc hcross hl
    obtain ⟨hx, hxs'⟩ := List.pairwise_cons.mp hl
    simp only [List.foldl_cons]
    by_cases hm : key x ∈ acc.map Prod.fst
    · refine ih _ ?_ ?_ hxs'
      · rw [keys_insertGroup_mem x hm]; exact hacc
      · rw [keys_insertGroup_mem x hm]
        intro k hk b hb
        exact hcross k hk b (List.mem_cons_of_mem x hb)
    · refine ih _ ?_ ?_ hxs'
      · rw [keys_insertGroup_new x hm]
        rw [List.pairwise_append]
        refine ⟨hacc, by simp, ?_⟩
        intro k hk k' hk'
        rw [List.mem_singleton] at hk'
        subst hk'
        refine hcross k hk x (List.mem_cons_self x xs) ?_
        intro he; exact hm (he ▸ hk)
      · rw [keys_insertGroup_new x hm]
        intro k hk b hb
        rcases List.mem_append.mp hk with hk' | hk'
        · exact hcross k hk' b (List.mem_cons_of_mem x hb)
        · rw [List.mem_singleton] at hk'
          subst hk'
          intro hne
          exact hx b hb (fun he => hne he.symm)

theorem lookupG_of_mem {κ α : Type} [DecidableEq κ]
    {l : List (κ × List α)} (hnd : (l.map Prod.fst).Pairwise (· ≠ ·))
    {g : κ × List α} (hg : g ∈ l) : lookupG g.1 l = some g.2 := by
  induction l with
  | nil => simp at hg
  | cons hd t ih =>
    rw [List.map_cons] at hnd
    obtain ⟨hh, ht⟩ := List.pairwise_cons.mp hnd
    rcases List.mem_cons.mp hg with rfl | hg'
    · simp [lookupG]
    · have hne : ¬ hd.1 = g.1 :=
        hh g.1 (List.mem_map.mpr ⟨g, hg', rfl⟩)
      simp only [lookupG, hne, if_false]
      exact ih ht hg'

theorem pairwise_self_imp {α : Type} (P : α → α → Prop) (l : List α) :
    l.Pairwise (fun a b => P a b → P a b) := by
  induction l with
  | nil => exact List.Pairwise.nil
  | cons x xs ih => exact List.pairwise_cons.mpr ⟨fun b _ h => h, ih⟩

/-- The keys of the groups `groupPush` emits are pairwise distinct. -/
theorem groupPush_keys_nodup {κ α : Type} [DecidableEq κ]
    (key : α → κ) (xs : List α) :
    ((groupPush key xs).map Prod.fst).Pairwise (· ≠ ·) :=
  groupPush_keys_ordered key (· ≠ ·) xs
    (pairwise_self_imp (fun a b => key a ≠ key b) xs)

/-- Every group that `groupPush` emits holds exactly the documents of
the stream with its key, in stream order. -/
theorem groupPush_mem_eq_filter {κ α : Type} [DecidableEq κ]
    {key : α → κ} {xs : List α} {g : κ × List α}
    (hg : g ∈ groupPush key xs) :
    g.2 = xs.filter (fun a => decide (key a = g.1)) ∧ g.2 ≠ [] := by
  have hnd := groupPush_keys_nodup key xs
  have hl := lookupG_of_mem hnd hg
  rw [lookupG_groupPush] at hl
  by_cases he : (xs.filter (fun a => decide (key a = g.1))).isEmpty
  · rw [if_pos he] at hl; cases hl
  · rw [if_neg he] at hl
    have heq := Option.some.inj hl
    refine ⟨heq.symm, ?_⟩
    intro hc
    rw [hc] at heq
    rw [heq] at he
    simp at he

/-- `$group` + `$push` followed by summing per-group totals gives the
sum over the whole stream. -/
theorem groupPush_sum {κ α : Type} [DecidableEq κ] (key : α → κ)
    (f : α → ℚ) (xs : List α) :
    ((groupPush key xs).map (fun g => (g.2.map f).sum)).sum
      = (xs.map f).sum := by
  suffices h : ∀ (l : List α) (acc : List (κ × List α)),
      (((l.foldl (fun acc x => insertGroup (key x) x acc) acc)).map
        (fun g => (g.2.map f).sum)).sum
      = (acc.map (fun g => (g.2.map f).sum)).sum + (l.map f).sum by
    have := h xs []
    simpa [groupPush] using this
  have hins : ∀ (k : κ) (x : α) (l : List (κ × List α)),
      ((insertGroup k x l).map (fun g => (g.2.map f).sum)).sum
        = (l.map (fun g => (g.2.map f).sum)).sum + f x := by
    intro k x l
    induction l with
    | nil => simp [insertGroup]
    | cons g gs ih =>
      unfold insertGroup
      by_cases hk : g.1 = k
      · rw [if_pos hk]
        simp only [List.map_cons, List.sum_cons, List.map_append,
          List.sum_append]
        simp
        ring
      · rw [if_neg hk]
        simp only [List.map_cons, List.sum_cons, ih]
        ring
  intro l
  induction l with
  | nil => intro acc; simp
  | cons x xs ih =>
    intro acc
    simp only [List.foldl_cons]
    rw [ih, hins]
    simp only [List.map_cons, List.sum_cons]
    ring

/-! ### The data model and the store (`DBService` in `utils.py`) -/

/-- An expense document as stored under the `expense` field
(`title`, `sum`, `date`, `category`); amounts are modelled exactly,
as rationals. -/
structure Expense where
  title : String
  sum : ℚ
  date : DateTime
  category : Category
deriving DecidableEq, Repr

/-- One document of the `ispend.spends` collection: the ObjectId is
modelled as a `Nat` assigned from a monotone counter, `userId` scopes
the record to its owner. -/
structure Entry where
  eid : Nat
  userId : String
  expense : Expense
deriving DecidableEq, Repr

/-- The spends collection: documents in insertion order plus the next
fresh id. -/
structure DB where
  entries : List Entry
  nextId : Nat

/-- Store invariant: ids were assigned by the counter (strictly
increasing along insertion order and below `nextId`) and every stored
`expense.date` was normalized to midnight by `add_expense`. -/
def DB.WF (db : DB) : Prop :=
  db.entries.Pairwise (fun a b => a.eid < b.eid) ∧
  (∀ e ∈ db.entries, e.eid < db.nextId) ∧
  (∀ e ∈ db.entries, e.expense.date.secs = 0)

/-- The payload of `POST /add` (`ExpenseData` in `main.py`):
a calendar date, no time component. -/
structure ExpenseData where
  title : String
  sum : ℚ
  date : Date
  category : Category

/-- A record as returned to the caller: the stored expense with the
generated id exposed (`{"id": str(_id), **expense}`). -/
structure ExpenseOut where
  id : Nat
  title : String
  sum : ℚ
  date : DateTime
  category : Category
deriving DecidableEq, Repr

/-- Formatting of a store document for the response. -/
def entryOut (e : Entry) : ExpenseOut :=
  ⟨e.eid, e.expense.title, e.expense.sum, e.expense.date, e.expense.category⟩

/-- `datetime(date.year, date.month, date.day, 0, 0, 0, tzinfo=utc)`:
the lower range bound and the normalized stored instant. -/
def dayStart (d : Date) : DateTime := ⟨d, 0⟩

/-- `datetime(date.year, date.month, date.day, 23, 59, 59, tzinfo=utc)`:
the upper range bound, the last stored second of the calendar day. -/
def dayEnd (d : Date) : DateTime := ⟨d, 23 * 3600 + 59 * 60 + 59⟩

/-- `DBService.add_expense`: normalize the date to midnight UTC, insert
with a fresh id, and return the persisted record with its id. -/
def DBService.add_expense (db : DB) (user_id : String) (x : ExpenseData) :
    DB × ExpenseOut :=
  let entry : Entry :=
    ⟨db.nextId, user_id, ⟨x.title, x.sum, dayStart x.date, x.category⟩⟩
  (⟨db.entries ++ [entry], db.nextId + 1⟩, entryOut entry)

/-- The `$match` stage shared by all three pipelines: same owner and
`expense.date` within `[dayStart from_date, dayEnd to_date]`. -/
def matchRange (user_id : String) (from_date to_date : Date) (e : Entry) :
    Bool :=
  decide (e.userId = user_id) &&
  decide (DateTime.le (dayStart from_date) e.expense.date) &&
  decide (DateTime.le e.expense.date (dayEnd to_date))

/-- `DBService.read_expenses`: `$match` on owner and date range,
`$sort` by `expense.date` descending, then format each document. -/
def DBService.read_expenses (db : DB) (user_id : String)
    (from_date to_date : Date) : List ExpenseOut :=
  ((sortLe (fun a b => decide (DateTime.le b.expense.date a.expense.date))
      (db.entries.filter (matchRange user_id from_date to_date))).map
    entryOut)

/-- MongoDB `$slice` with integer argument `n`: the first `n` documents
for `n ≥ 0`, the last `-n` for negative `n`. -/
def sliceN {α : Type} (xs : List α) (n : Int) : List α :=
  if 0 ≤ n then xs.take n.toNat else xs.drop (xs.length - (-n).toNat)

/-- The compound `$sort` key of `read_stats`: `expense.category`
ascending (string order), then `expense.sum` descending. -/
def leCatSum (a b : Expense) : Bool :=
  catLtB a.category b.category ||
  (decide (a.category = b.category) && decide (b.sum ≤ a.sum))

/-- One element of the `categorystats` response list. -/
structure CategoryStats where
  categoryname : Category
  total : ℚ
  expenselist : List Expense
deriving DecidableEq, Repr

/-- `DBService.read_stats`: `$match`, `$sort` by category asc / sum
desc, `$group` by category computing `categorytotal` over the whole
group and `$push`-ing the documents, `$project` slicing each list to
`top`; then the Python loop sums the category totals. -/
def DBService.read_stats (db : DB) (user_id : String)
    (from_date to_date : Date) (top : Int) : ℚ × List CategoryStats :=
  let groups := groupPush Expense.category
    (sortLe leCatSum
      ((db.entries.filter (matchRange user_id from_date to_date)).map
        Entry.expense))
  (((groups.map (fun g => ((g.2.map Expense.sum).sum))).sum),
   groups.map (fun g =>
     ⟨g.1, (g.2.map Expense.sum).sum, sliceN g.2 top⟩))

/-- One `(date, total)` bucket of a category history. -/
structure HistPoint where
  date : DateTime
  total : ℚ
deriving DecidableEq, Repr

/-- One element of the `/history` response list. -/
structure CategoryHistory where
  categoryname : Category
  history : List HistPoint
deriving DecidableEq, Repr

/-- The engine-side formatting at the end of `read_history`
(`[{"categoryname": c["_id"], "history": c["history"]} for c in
history]`): it renames fields and performs no re-sorting. -/
def read_history_format (hs : List (Category × List HistPoint)) :
    List CategoryHistory :=
  hs.map (fun c => ⟨c.1, c.2⟩)

/-- The `$sort` key of `read_history`: `_id.category` ascending
(string order), then `_id.date` ascending. -/
def leCatDate (a b : (Category × DateTime) × ℚ) : Bool :=
  catLtB a.1.1 b.1.1 ||
  (decide (a.1.1 = b.1.1) && decide (DateTime.le a.1.2 b.1.2))

/-- The first `$group` of `read_history`: per `(category, date)` key,
the sum of `expense.sum` over the matching records. -/
def histBuckets (db : DB) (user_id : String) (from_date to_date : Date) :
    List ((Category × DateTime) × ℚ) :=
  (groupPush (fun e : Expense => (e.category, e.date))
    ((db.entries.filter (matchRange user_id from_date to_date)).map
      Entry.expense)).map
    (fun g => (g.1, (g.2.map Expense.sum).sum))

/-- The store-side aggregation of `read_history`: `$match`, `$group` by
`(category, date)` summing `expense.sum`, `$sort` by category asc /
date asc, then a second `$group` by category `$push`-ing
`{date, total}` buckets. -/
def read_history_aggregate (db : DB) (user_id : String)
    (from_date to_date : Date) : List (Category × List HistPoint) :=
  (groupPush (fun x : (Category × DateTime) × ℚ => x.1.1)
    (sortLe leCatDate (histBuckets db user_id from_date to_date))).map
    (fun g => (g.1, g.2.map (fun x => ⟨x.1.2, x.2⟩)))

/-- `DBService.read_history`: the aggregation followed by the
formatting loop. -/
def DBService.read_history (db : DB) (user_id : String)
    (from_date to_date : Date) : List CategoryHistory :=
  read_history_format (read_history_aggregate db user_id from_date to_date)

/-! ### The endpoint handlers of `main.py` -/

/-- The error taxonomy of the spec; the handlers of `main.py` raise
neither variant themselves on the read path. -/
inductive ApiError
  | validationError
  | storageError
deriving DecidableEq, Repr

/-- Python `calendar` leap-year rule as used by `dateutil`. -/
def isLeap (y : Int) : Bool :=
  y % 4 == 0 && (y % 100 != 0 || y % 400 == 0)

/-- Days in a month of a given year. -/
def daysInMonth (y m : Int) : Int :=
  if m = 2 then (if isLeap y then 29 else 28)
  else if m = 4 ∨ m = 6 ∨ m = 9 ∨ m = 11 then 30
  else 31

/-- `date - relativedelta(months=n)` (dateutil): shift by calendar
months, clamping the day to the last valid day of the target month. -/
def subMonths (d : Date) (n : Int) : Date :=
  let total := d.year * 12 + (d.month - 1) - n
  let y := total / 12
  let m := total % 12 + 1
  ⟨y, m, min d.day (daysInMonth y m)⟩

/-- `to_date.replace(day=1)`. -/
def firstOfMonth (d : Date) : Date := ⟨d.year, d.month, 1⟩

/-- A well-formed calendar date. -/
def DateValid (d : Date) : Prop :=
  1 ≤ d.month ∧ d.month ≤ 12 ∧ 1 ≤ d.day ∧ d.day ≤ daysInMonth d.year d.month

instance (d : Date) : Decidable (DateValid d) := by
  unfold DateValid; exact inferInstance

/-- The calendar day after `d` (the spec's `to_date + 1 day`). -/
def nextDay (d : Date) : Date :=
  if d.day < daysInMonth d.year d.month then ⟨d.year, d.month, d.day + 1⟩
  else if d.month < 12 then ⟨d.year, d.month + 1, 1⟩
  else ⟨d.year + 1, 1, 1⟩

/-- `GET /recent`: window is `[first of to_date's month, to_date]`. -/
def get_recent_expenses (db : DB) (user_id : String) (to_date : Date) :
    Except ApiError (List ExpenseOut) :=
  Except.ok (DBService.read_expenses db user_id (firstOfMonth to_date)
    to_date)

/-- `GET /history`: window is `[to_date - months, to_date]`; the
handler performs no validation of `months`. -/
def get_historic_expenses (db : DB) (user_id : String) (to_date : Date)
    (months : Int) : Except ApiError (List CategoryHistory) :=
  Except.ok (DBService.read_history db user_id (subMonths to_date months)
    to_date)

/-- The `/monthstats` response shape. -/
structure MonthlyStats where
  monthtotal : ℚ
  categorystats : List CategoryStats
deriving DecidableEq, Repr

/-- `GET /monthstats`: window is `[first of to_date's month, to_date]`;
the handler performs no validation of `top`. -/
def get_monthly_statistics (db : DB) (user_id : String) (to_date : Date)
    (top : Int) : Except ApiError MonthlyStats :=
  let r := DBService.read_stats db user_id (firstOfMonth to_date) to_date
    top
  Except.ok ⟨r.1, r.2⟩

/-- Extract a successful result. -/
def getOk {α : Type} (x : Except ApiError α) (dflt : α) : α :=
  match x with
  | Except.ok a => a
  | Except.error _ => dflt

example : subMonths ⟨2024, 3, 31⟩ 1 = ⟨2024, 2, 29⟩ := by decide
example : subMonths ⟨2023, 3, 31⟩ 1 = ⟨2023, 2, 28⟩ := by decide
example : subMonths ⟨2024, 1, 15⟩ 2 = ⟨2023, 11, 15⟩ := by decide
example : nextDay ⟨2024, 2, 29⟩ = ⟨2024, 3, 1⟩ := by decide
example : nextDay ⟨2023, 12, 31⟩ = ⟨2024, 1, 1⟩ := by decide

/-! ### Semantics of the `$match` bounds -/

theorem dayStart_le_iff (f : Date) (x : DateTime) (hx : x.secs = 0) :
    DateTime.le (dayStart f) x ↔ Date.le f x.d := by
  obtain ⟨xd, xs⟩ := x
  simp only at hx
  subst hx
  simp only [DateTime.le, DateTime.lt, dayStart, Date.le, DateTime.mk.injEq]
  constructor
  · rintro ((h | ⟨he, hs⟩) | ⟨he, _⟩)
    · exact Or.inl h
    · omega
    · exact Or.inr he
  · rintro (h | rfl)
    · exact Or.inl (Or.inl h)
    · exact Or.inr ⟨rfl, trivial⟩

theorem le_dayEnd_iff (t : Date) (x : DateTime) (hx : x.secs = 0) :
    DateTime.le x (dayEnd t) ↔ Date.le x.d t := by
  obtain ⟨xd, xs⟩ := x
  simp only at hx
  subst hx
  simp only [DateTime.le, DateTime.lt, dayEnd, Date.le, DateTime.mk.injEq]
  constructor
  · rintro ((h | ⟨he, hs⟩) | ⟨he, hs⟩)
    · exact Or.inl h
    · exact Or.inr he
    · exact Or.inr he
  · rintro (h | rfl)
    · exact Or.inl (Or.inl h)
    · exact Or.inl (Or.inr ⟨rfl, by norm_num⟩)

theorem matchRange_iff {user_id : String} {f t : Date} {e : Entry}
    (hnorm : e.expense.date.secs = 0) :
    matchRange user_id f t e = true ↔
      e.userId = user_id ∧ Date.le f e.expense.date.d ∧
        Date.le e.expense.date.d t := by
  unfold matchRange
  rw [Bool.and_eq_true, Bool.and_eq_true]
  rw [decide_eq_true_eq, decide_eq_true_eq, decide_eq_true_eq]
  rw [dayStart_le_iff _ _ hnorm, le_dayEnd_iff _ _ hnorm]
  tauto

theorem lt_nextDay (t : Date) : Date.lt t (nextDay t) := by
  unfold nextDay
  by_cases h : t.day < daysInMonth t.year t.month
  · rw [if_pos h]
    exact Or.inr ⟨rfl, Or.inr ⟨rfl, show t.day < t.day + 1 from lt_add_one _⟩⟩
  · rw [if_neg h]
    by_cases h2 : t.month < 12
    · rw [if_pos h2]
      exact Or.inr ⟨rfl, Or.inl (show t.month < t.month + 1 from lt_add_one _)⟩
    · rw [if_neg h2]
      exact Or.inl (show t.year < t.year + 1 from lt_add_one _)

theorem not_le_of_date_lt {a b : Date} (h : Date.lt a b) : ¬ Date.le b a := by
  rintro (h' | rfl)
  · exact date_lt_asymm h h'
  · exact date_lt_asymm h h

/-! ### Comparator laws -/

theorem catLtB_trans : ∀ a b c : Category,
    catLtB a b = true → catLtB b c = true → catLtB a c = true := by decide

theorem catLtB_tri : ∀ a b : Category,
    catLtB a b = true ∨ catLtB b a = true ∨ a = b := by decide

theorem catLtB_irrefl : ∀ a : Category, catLtB a a = false := by decide

theorem catLtB_asymm : ∀ a b : Category,
    catLtB a b = true → catLtB b a = true → False := by decide

theorem leCatSum_total : ∀ a b : Expense,
    leCatSum a b = true ∨ leCatSum b a = true := by
  intro a b
  unfold leCatSum
  rcases catLtB_tri a.category b.category with h | h | h
  · left; simp [h]
  · right; simp [h]
  · rcases le_total a.sum b.sum with hs | hs
    · right; simp [h, hs]
    · left; simp [h, hs]

theorem leCatSum_trans : ∀ a b c : Expense,
    leCatSum a b = true → leCatSum b c = true → leCatSum a c = true := by
  intro a b c hab hbc
  unfold leCatSum at *
  rw [Bool.or_eq_true, Bool.and_eq_true, decide_eq_true_eq,
    decide_eq_true_eq] at hab hbc ⊢
  rcases hab with hab | ⟨hab1, hab2⟩
  · rcases hbc with hbc | ⟨hbc1, hbc2⟩
    · exact Or.inl (catLtB_trans _ _ _ hab hbc)
    · exact Or.inl (hbc1 ▸ hab)
  · rcases hbc with hbc | ⟨hbc1, hbc2⟩
    · exact Or.inl (hab1 ▸ hbc)
    · exact Or.inr ⟨hab1.trans hbc1, hbc2.trans hab2⟩

/-- The `$sort` comparator of `read_expenses`: date descending. -/
theorem leDateDesc_total : ∀ a b : Entry,
    (decide (DateTime.le b.expense.date a.expense.date) = true) ∨
    (decide (DateTime.le a.expense.date b.expense.date) = true) := by
  intro a b
  rcases DateTime.le_total b.expense.date a.expense.date with h | h
  · left; exact decide_eq_true h
  · right; exact decide_eq_true h

theorem leDateDesc_trans : ∀ a b c : Entry,
    decide (DateTime.le b.expense.date a.expense.date) = true →
    decide (DateTime.le c.expense.date b.expense.date) = true →
    decide (DateTime.le c.expense.date a.expense.date) = true := by
  intro a b c h1 h2
  rw [decide_eq_true_eq] at *
  exact DateTime.le_trans h2 h1

/-! ### Characterization of `read_stats` -/

/-- The Python accumulator `total` of `read_stats` sums every matching
record's amount: grouping happens before slicing, so `top` never
affects it. -/
theorem read_stats_fst (db : DB) (user_id : String) (f t : Date)
    (top : Int) :
    (DBService.read_stats db user_id f t top).1 =
      ((db.entries.filter (matchRange user_id f t)).map
        (fun e => e.expense.sum)).sum := by
  unfold DBService.read_stats
  simp only
  rw [groupPush_sum]
  have hperm :=
    (sortLe_perm leCatSum
      ((db.entries.filter (matchRange user_id f t)).map
        Entry.expense)).map Expense.sum
  rw [hperm.sum_eq, List.map_map]
  rfl

/-- **C2** For every owner, window and `top`, the `monthtotal` returned
by `get_monthly_statistics` equals the sum of `expense.sum` over all of
the owner's records matching the month window — independent of `top` —
and it also equals the sum of the per-category `total`s of the returned
`categorystats`. -/
theorem monthstats_total_eq_window_sum (db : DB) (user_id : String)
    (to_date : Date) (top : Int) :
    (getOk (get_monthly_statistics db user_id to_date top)
        ⟨0, []⟩).monthtotal
      = ((db.entries.filter
          (matchRange user_id (firstOfMonth to_date) to_date)).map
          (fun e => e.expense.sum)).sum
    ∧ (getOk (get_monthly_statistics db user_id to_date top)
        ⟨0, []⟩).monthtotal
      = ((getOk (get_monthly_statistics db user_id to_date top)
          ⟨0, []⟩).categorystats.map CategoryStats.total).sum := by
  constructor
  · exact read_stats_fst db user_id (firstOfMonth to_date) to_date top
  · show (DBService.read_stats db user_id (firstOfMonth to_date) to_date
      top).1 =
      ((DBService.read_stats db user_id (firstOfMonth to_date) to_date
        top).2.map CategoryStats.total).sum
    unfold DBService.read_stats
    simp only [List.map_map]
    rfl

/-! ### Characterization of `read_expenses` -/

theorem entry_eq_of_eid {db : DB} (hwf : DB.WF db) {e e' : Entry}
    (he : e ∈ db.entries) (he' : e' ∈ db.entries) (h : e.eid = e'.eid) :
    e = e' := by
  by_contra hne
  have hp : db.entries.Pairwise (fun a b => a.eid ≠ b.eid) :=
    hwf.1.imp (fun h => Nat.ne_of_lt h)
  have hsym : Symmetric (fun a b : Entry => a.eid ≠ b.eid) :=
    fun _ _ hab heq => hab heq.symm
  exact hp.forall hsym he he' hne h

theorem mem_read_expenses_iff {db : DB} (hwf : DB.WF db) (u : String)
    (f t : Date) (x : ExpenseOut) :
    x ∈ DBService.read_expenses db u f t ↔
      ∃ e ∈ db.entries, entryOut e = x ∧ e.userId = u ∧
        Date.le f e.expense.date.d ∧ Date.le e.expense.date.d t := by
  unfold DBService.read_expenses
  rw [List.mem_map]
  constructor
  · rintro ⟨e, he, rfl⟩
    rw [(sortLe_perm _ _).mem_iff, List.mem_filter] at he
    obtain ⟨hmem, hmatch⟩ := he
    obtain ⟨hu, h1, h2⟩ :=
      (matchRange_iff (hwf.2.2 e hmem)).mp hmatch
    exact ⟨e, hmem, rfl, hu, h1, h2⟩
  · rintro ⟨e, he, rfl, hu, h1, h2⟩
    refine ⟨e, ?_, rfl⟩
    rw [(sortLe_perm _ _).mem_iff, List.mem_filter]
    exact ⟨he, (matchRange_iff (hwf.2.2 e he)).mpr ⟨hu, h1, h2⟩⟩

/-- **C1** For every owner and window with `from ≤ to`, `read_expenses`
(serving `get_recent`) returns exactly the stored records whose owner
matches and whose date lies within `[from, to]`, both bounds inclusive:
membership is characterized, a record dated exactly `to_date` is
included, and a record dated `to_date + 1 day` is excluded (the
`23:59:59` upper bound covers the whole calendar day of `to_date` and
nothing beyond). -/
theorem read_expenses_window (db : DB) (u : String) (f t : Date)
    (hwf : DB.WF db) (hft : Date.le f t) :
    (∀ x : ExpenseOut, x ∈ DBService.read_expenses db u f t ↔
      ∃ e ∈ db.entries, entryOut e = x ∧ e.userId = u ∧
        Date.le f e.expense.date.d ∧ Date.le e.expense.date.d t) ∧
    (∀ e ∈ db.entries, e.userId = u → e.expense.date.d = t →
      entryOut e ∈ DBService.read_expenses db u f t) ∧
    (∀ e ∈ db.entries, e.expense.date.d = nextDay t →
      entryOut e ∉ DBService.read_expenses db u f t) := by
  refine ⟨fun x => mem_read_expenses_iff hwf u f t x, ?_, ?_⟩
  · intro e he hu hd
    rw [mem_read_expenses_iff hwf u f t]
    exact ⟨e, he, rfl, hu, hd ▸ hft, hd ▸ Or.inr rfl⟩
  · intro e he hd hmem
    rw [mem_read_expenses_iff hwf u f t] at hmem
    obtain ⟨e', he', heq, _, _, h2⟩ := hmem
    have heid : e'.eid = e.eid := congrArg ExpenseOut.id heq
    have : e' = e := entry_eq_of_eid hwf he' he heid
    subst this
    rw [hd] at h2
    exact not_le_of_date_lt (lt_nextDay t) h2

instance (db : DB) : Decidable (DB.WF db) := by
  unfold DB.WF; exact inferInstance

/-- A small concrete store for witnesses: two records of owner `"u"`
in March 2024, ids assigned by the counter. -/
def dbEx : DB :=
  ⟨[⟨0, "u", ⟨"a", 5, ⟨⟨2024, 3, 10⟩, 0⟩, Category.food⟩⟩,
    ⟨1, "u", ⟨"b", 3, ⟨⟨2024, 3, 16⟩, 0⟩, Category.car⟩⟩], 2⟩

theorem read_expenses_window_witness :
    entryOut ⟨0, "u", ⟨"a", 5, ⟨⟨2024, 3, 10⟩, 0⟩, Category.food⟩⟩ ∈
      DBService.read_expenses dbEx "u" ⟨2024, 3, 1⟩ ⟨2024, 3, 15⟩ := by
  have h := read_expenses_window dbEx "u" ⟨2024, 3, 1⟩ ⟨2024, 3, 15⟩
    (by decide) (by decide)
  exact (h.1 _).mpr
    ⟨⟨0, "u", ⟨"a", 5, ⟨⟨2024, 3, 10⟩, 0⟩, Category.food⟩⟩,
      by decide, rfl, rfl, by decide, by decide⟩

/-- **C5** For every owner and window, `read_expenses` (hence
`get_recent`) is sorted by date descending, and records with equal
dates appear in insertion order (store-assigned id ascending), making
the output order fully deterministic: under the store model the
documents enter `$sort` in insertion order and the stable sort keeps
ties in that order. -/
theorem read_expenses_order (db : DB) (u : String) (f t : Date)
    (hwf : DB.WF db) :
    (DBService.read_expenses db u f t).Pairwise
      (fun a b => DateTime.lt b.date a.date ∨
        (a.date = b.date ∧ a.id < b.id)) := by
  unfold DBService.read_expenses
  rw [List.pairwise_map]
  have hfil : (db.entries.filter (matchRange u f t)).Pairwise
      (fun a b => a.eid < b.eid) :=
    List.Pairwise.sublist (List.filter_sublist _) hwf.1
  have hst := @sortLe_pairwise_stable Entry _ Entry.eid leDateDesc_total
    leDateDesc_trans _ hfil
  refine hst.imp ?_
  intro a b hab
  obtain ⟨h1, h2⟩ := hab
  rw [decide_eq_true_eq] at h1
  by_cases h3 : DateTime.le a.expense.date b.expense.date
  · exact Or.inr ⟨DateTime.le_antisymm h3 h1, h2 (decide_eq_true h3)⟩
  · left
    rcases DateTime.lt_trichotomy a.expense.date b.expense.date with h | h | h
    · exact absurd (Or.inl h) h3
    · exact absurd (Or.inr h) h3
    · exact h

theorem read_expenses_order_witness :
    (DBService.read_expenses dbEx "u" ⟨2024, 3, 1⟩ ⟨2024, 3, 31⟩).Pairwise
      (fun a b => DateTime.lt b.date a.date ∨
        (a.date = b.date ∧ a.id < b.id)) :=
  read_expenses_order dbEx "u" ⟨2024, 3, 1⟩ ⟨2024, 3, 31⟩ (by decide)

/-! ### The top-N property of `read_stats` -/

theorem sliceN_nonneg {α : Type} (xs : List α) {n : Int} (h : 0 ≤ n) :
    sliceN xs n = xs.take n.toNat := by
  unfold sliceN
  rw [if_pos h]

/-- The owner's matching expenses of one category in a window. -/
def catMatched (db : DB) (u : String) (f t : Date) (c : Category) :
    List Expense :=
  ((db.entries.filter (matchRange u f t)).map Entry.expense).filter
    (fun e => decide (e.category = c))

/-- **C3** Every `CategoryStats` entry that `read_stats` returns for a
positive `top` keeps at most `top` records — exactly
`min top (number of matching records of that category)` — while its
`total` sums all matching records of the category; the kept list is a
sub-multiset of the category's matching records, and every record kept
has an amount at least that of every matching record left out. -/
theorem read_stats_top_n (db : DB) (u : String) (f t : Date) (top : Int)
    (htop : 0 < top) (s : CategoryStats)
    (hs : s ∈ (DBService.read_stats db u f t top).2) :
    s.expenselist.length
        = min top.toNat (catMatched db u f t s.categoryname).length
    ∧ s.total
        = ((catMatched db u f t s.categoryname).map Expense.sum).sum
    ∧ (∀ x : Expense, s.expenselist.count x ≤
        (catMatched db u f t s.categoryname).count x)
    ∧ (∀ x ∈ s.expenselist, ∀ y ∈ catMatched db u f t s.categoryname,
        y.sum ≤ x.sum ∨ y ∈ s.expenselist) := by
  unfold DBService.read_stats at hs
  simp only [List.mem_map] at hs
  obtain ⟨g, hg, rfl⟩ := hs
  dsimp only
  obtain ⟨hg2, -⟩ := groupPush_mem_eq_filter hg
  have hperm : (sortLe leCatSum
        ((db.entries.filter (matchRange u f t)).map Entry.expense)).filter
          (fun a => decide (Expense.category a = g.1))
      |>.Perm (catMatched db u f t g.1) :=
    (sortLe_perm leCatSum _).filter _
  rw [hg2]
  rw [sliceN_nonneg _ htop.le]
  have hsorted := sortLe_pairwise leCatSum_total leCatSum_trans
    ((db.entries.filter (matchRange u f t)).map Entry.expense)
  have hLp : ((sortLe leCatSum
        ((db.entries.filter (matchRange u f t)).map Entry.expense)).filter
          (fun a => decide (Expense.category a = g.1))).Pairwise
      (fun a b => leCatSum a b = true) :=
    List.Pairwise.sublist (List.filter_sublist _) hsorted
  have hLsum : ((sortLe leCatSum
        ((db.entries.filter (matchRange u f t)).map Entry.expense)).filter
          (fun a => decide (Expense.category a = g.1))).Pairwise
      (fun a b => b.sum ≤ a.sum) := by
    refine List.Pairwise.imp_of_mem ?_ hLp
    intro a b ha hb hab
    have hca : a.category = g.1 := by
      have h' := (List.mem_filter.mp ha).2
      rwa [decide_eq_true_eq] at h'
    have hcb : b.category = g.1 := by
      have h' := (List.mem_filter.mp hb).2
      rwa [decide_eq_true_eq] at h'
    unfold leCatSum at hab
    rw [Bool.or_eq_true, Bool.and_eq_true, decide_eq_true_eq,
      decide_eq_true_eq] at hab
    rcases hab with hab | ⟨_, hs2⟩
    · rw [hca, hcb] at hab
      rw [catLtB_irrefl] at hab
      cases hab
    · exact hs2
  refine ⟨?_, ?_, ?_, ?_⟩
  · rw [List.length_take, hperm.length_eq]
  · exact ((hperm.map Expense.sum).sum_eq)
  · intro x
    have h1 := List.Sublist.count_le
      (List.take_sublist top.toNat
        ((sortLe leCatSum
          ((db.entries.filter (matchRange u f t)).map Entry.expense)).filter
            (fun a => decide (Expense.category a = g.1)))) x
    exact h1.trans (le_of_eq (hperm.count_eq x))
  · intro x hx y hy
    rw [← hperm.mem_iff] at hy
    have hsplit := List.take_append_drop top.toNat
      ((sortLe leCatSum
        ((db.entries.filter (matchRange u f t)).map Entry.expense)).filter
          (fun a => decide (Expense.category a = g.1)))
    rw [← hsplit] at hLsum hy
    obtain ⟨-, -, hcross⟩ := List.pairwise_append.mp hLsum
    rcases List.mem_append.mp hy with hy' | hy'
    · exact Or.inr hy'
    · exact Or.inl (hcross x hx y hy')

/-- Five records of one category, for exercising `top = 2`. -/
def dbFive : DB :=
  ⟨[⟨0, "u", ⟨"a", 1, ⟨⟨2024, 3, 3⟩, 0⟩, Category.food⟩⟩,
    ⟨1, "u", ⟨"b", 4, ⟨⟨2024, 3, 4⟩, 0⟩, Category.food⟩⟩,
    ⟨2, "u", ⟨"c", 2, ⟨⟨2024, 3, 5⟩, 0⟩, Category.food⟩⟩,
    ⟨3, "u", ⟨"d", 5, ⟨⟨2024, 3, 6⟩, 0⟩, Category.food⟩⟩,
    ⟨4, "u", ⟨"e", 3, ⟨⟨2024, 3, 7⟩, 0⟩, Category.food⟩⟩], 5⟩

theorem read_stats_top_n_witness :
    (0 : Int) < 2 ∧
    (⟨Category.food, 15,
      [⟨"d", 5, ⟨⟨2024, 3, 6⟩, 0⟩, Category.food⟩,
       ⟨"b", 4, ⟨⟨2024, 3, 4⟩, 0⟩, Category.food⟩]⟩ :
        CategoryStats).expenselist.length
      = min (2 : Int).toNat
          (catMatched dbFive "u" ⟨2024, 3, 1⟩ ⟨2024, 3, 31⟩
            Category.food).length ∧
    (⟨Category.food, 15,
      [⟨"d", 5, ⟨⟨2024, 3, 6⟩, 0⟩, Category.food⟩,
       ⟨"b", 4, ⟨⟨2024, 3, 4⟩, 0⟩, Category.food⟩]⟩ :
        CategoryStats).total
      = ((catMatched dbFive "u" ⟨2024, 3, 1⟩ ⟨2024, 3, 31⟩
          Category.food).map Expense.sum).sum := by
  have hs : (⟨Category.food, 15,
      [⟨"d", 5, ⟨⟨2024, 3, 6⟩, 0⟩, Category.food⟩,
       ⟨"b", 4, ⟨⟨2024, 3, 4⟩, 0⟩, Category.food⟩]⟩ : CategoryStats) ∈
      (DBService.read_stats dbFive "u" ⟨2024, 3, 1⟩ ⟨2024, 3, 31⟩ 2).2 := by
    have he : (DBService.read_stats dbFive "u" ⟨2024, 3, 1⟩
        ⟨2024, 3, 31⟩ 2).2 =
        [⟨Category.food, 15,
          [⟨"d", 5, ⟨⟨2024, 3, 6⟩, 0⟩, Category.food⟩,
           ⟨"b", 4, ⟨⟨2024, 3, 4⟩, 0⟩, Category.food⟩]⟩] := by
      simp +decide [DBService.read_stats, sortLe, insertStable, groupPush,
        insertGroup, matchRange, dbFive, sliceN, dayStart, dayEnd, leCatSum]
      norm_num
    rw [he]
    exact List.mem_singleton_self _
  have h := read_stats_top_n dbFive "u" ⟨2024, 3, 1⟩ ⟨2024, 3, 31⟩ 2
    (by decide) _ hs
  exact ⟨by decide, h.1, h.2.1⟩

/-- **C10** (implicit) The per-category stats sequence returned by
`get_monthly_statistics` is ordered ascending by category name in the
store's string order: the pipeline `$sort`s by category ascending
before `$group`, and the deterministic grouping emits groups in
first-occurrence order. -/
theorem monthstats_categories_sorted (db : DB) (user_id : String)
    (to_date : Date) (top : Int) :
    ((getOk (get_monthly_statistics db user_id to_date top)
        ⟨0, []⟩).categorystats).Pairwise
      (fun a b => catLtB a.categoryname b.categoryname = true) := by
  show ((DBService.read_stats db user_id (firstOfMonth to_date) to_date
    top).2).Pairwise _
  unfold DBService.read_stats
  simp only
  rw [List.pairwise_map]
  have hsorted := sortLe_pairwise leCatSum_total leCatSum_trans
    ((db.entries.filter
      (matchRange user_id (firstOfMonth to_date) to_date)).map
      Entry.expense)
  have hxs : (sortLe leCatSum
      ((db.entries.filter
        (matchRange user_id (firstOfMonth to_date) to_date)).map
        Entry.expense)).Pairwise
      (fun a b => Expense.category a ≠ Expense.category b →
        catLtB (Expense.category a) (Expense.category b) = true) := by
    refine hsorted.imp ?_
    intro a b hab hne
    unfold leCatSum at hab
    rw [Bool.or_eq_true, Bool.and_eq_true, decide_eq_true_eq,
      decide_eq_true_eq] at hab
    rcases hab with hab | ⟨he, -⟩
    · exact hab
    · exact absurd he hne
  have hkeys := groupPush_keys_ordered Expense.category
    (fun k k' => catLtB k k' = true) _ hxs
  rw [List.pairwise_map] at hkeys
  exact hkeys

/-! ### The history window (`/history`, `relativedelta` arithmetic) -/

theorem daysInMonth_pos (y m : Int) : 1 ≤ daysInMonth y m := by
  unfold daysInMonth
  split
  · split <;> omega
  · split <;> omega

/-- **C4** `get_historic_expenses` queries the window
`[to_date − months calendar months, to_date]`: the handler passes
`subMonths to_date months` as the lower bound, month subtraction clamps
the day to the last valid day of the target month (never overflowing
into the next month), `2024-03-31 − 1 month = 2024-02-29` (leap year)
and `2023-03-31 − 1 month = 2023-02-28`, and the result is a valid
date whenever the input is. -/
theorem history_window (db : DB) (u : String) :
    (∀ (to_date : Date) (m : Int), get_historic_expenses db u to_date m =
      Except.ok (DBService.read_history db u (subMonths to_date m)
        to_date)) ∧
    subMonths ⟨2024, 3, 31⟩ 1 = ⟨2024, 2, 29⟩ ∧
    subMonths ⟨2023, 3, 31⟩ 1 = ⟨2023, 2, 28⟩ ∧
    (∀ (to_date : Date) (m : Int), DateValid to_date →
      DateValid (subMonths to_date m) ∧
      (subMonths to_date m).day =
        min to_date.day
          (daysInMonth (subMonths to_date m).year
            (subMonths to_date m).month)) := by
  refine ⟨fun _ _ => rfl, by decide, by decide, ?_⟩
  intro to_date m hv
  obtain ⟨h1, h2, h3, h4⟩ := hv
  constructor
  · unfold DateValid subMonths
    dsimp only
    refine ⟨?_, ?_, ?_, ?_⟩
    · omega
    · omega
    · exact le_min h3 (daysInMonth_pos _ _)
    · exact min_le_right _ _
  · rfl

theorem history_window_witness :
    DateValid ⟨2025, 1, 31⟩ ∧ DateValid (subMonths ⟨2025, 1, 31⟩ 2) :=
  ⟨by decide,
    ((history_window dbEx "u").2.2.2 ⟨2025, 1, 31⟩ 2 (by decide)).1⟩

/-! ### History bucket ordering (C6) -/

theorem leCatDate_total : ∀ a b : (Category × DateTime) × ℚ,
    leCatDate a b = true ∨ leCatDate b a = true := by
  intro a b
  unfold leCatDate
  rcases catLtB_tri a.1.1 b.1.1 with h | h | h
  · left; simp [h]
  · right; simp [h]
  · rcases DateTime.le_total a.1.2 b.1.2 with hd | hd
    · left; simp [h, hd]
    · right; simp [h, hd]

theorem leCatDate_trans : ∀ a b c : (Category × DateTime) × ℚ,
    leCatDate a b = true → leCatDate b c = true →
    leCatDate a c = true := by
  intro a b c hab hbc
  unfold leCatDate at *
  rw [Bool.or_eq_true, Bool.and_eq_true, decide_eq_true_eq,
    decide_eq_true_eq] at hab hbc ⊢
  rcases hab with hab | ⟨hab1, hab2⟩
  · rcases hbc with hbc | ⟨hbc1, hbc2⟩
    · exact Or.inl (catLtB_trans _ _ _ hab hbc)
    · exact Or.inl (hbc1 ▸ hab)
  · rcases hbc with hbc | ⟨hbc1, hbc2⟩
    · exact Or.inl (hab1 ▸ hbc)
    · exact Or.inr ⟨hab1.trans hbc1, DateTime.le_trans hab2 hbc2⟩

/-- A per-category history whose bucket dates are strictly increasing. -/
def histSorted (h : CategoryHistory) : Prop :=
  h.history.Pairwise (fun a b => DateTime.lt a.date b.date)

instance (h : CategoryHistory) : Decidable (histSorted h) := by
  unfold histSorted; exact inferInstance

/-- **C6 counterexample** The engine's boundary step after the store's
history aggregation (the formatting loop of `read_history`) performs no
defensive re-sort: an out-of-order store reply passes through
unchanged, so bucket monotonicity does not hold "regardless of store
behavior" as the claim asserts. -/
theorem read_history_no_defensive_sort :
    ¬ (∀ r : List (Category × List HistPoint),
        ∀ h ∈ read_history_format r, histSorted h) := by
  intro hall
  exact absurd
    (hall [(Category.food,
        [⟨⟨⟨2024, 3, 2⟩, 0⟩, 1⟩, ⟨⟨⟨2024, 3, 1⟩, 0⟩, 2⟩])]
      ⟨Category.food,
        [⟨⟨⟨2024, 3, 2⟩, 0⟩, 1⟩, ⟨⟨⟨2024, 3, 1⟩, 0⟩, 2⟩]⟩
      (by decide))
    (by decide)

theorem read_history_buckets_sorted (db : DB) (u : String) (f t : Date) :
    ∀ h ∈ DBService.read_history db u f t, histSorted h := by
  intro h hmem
  unfold DBService.read_history read_history_format at hmem
  rw [List.mem_map] at hmem
  obtain ⟨c, hc, rfl⟩ := hmem
  unfold read_history_aggregate at hc
  rw [List.mem_map] at hc
  obtain ⟨g, hg, rfl⟩ := hc
  unfold histSorted
  dsimp only
  rw [List.pairwise_map]
  obtain ⟨hg2, -⟩ := groupPush_mem_eq_filter hg
  have hnodupkeys : (histBuckets db u f t).Pairwise
      (fun a b => a.1 ≠ b.1) := by
    unfold histBuckets
    rw [List.pairwise_map]
    have hk := groupPush_keys_nodup
      (fun e : Expense => (e.category, e.date))
      ((db.entries.filter (matchRange u f t)).map Entry.expense)
    rw [List.pairwise_map] at hk
    exact hk
  have hsorted := sortLe_pairwise leCatDate_total leCatDate_trans
    (histBuckets db u f t)
  have hsym : Symmetric
      (fun a b : (Category × DateTime) × ℚ => a.1 ≠ b.1) :=
    fun _ _ hab he => hab he.symm
  have hnds : (sortLe leCatDate (histBuckets db u f t)).Pairwise
      (fun a b => a.1 ≠ b.1) :=
    ((sortLe_perm leCatDate _).pairwise_iff
      (fun {_ _} hab he => hab he.symm)).mpr hnodupkeys
  have hLle : g.2.Pairwise (fun a b => leCatDate a b = true) := by
    rw [hg2]
    exact List.Pairwise.sublist (List.filter_sublist _) hsorted
  have hLne : g.2.Pairwise (fun a b => a.1 ≠ b.1) := by
    rw [hg2]
    exact List.Pairwise.sublist (List.filter_sublist _) hnds
  refine List.Pairwise.imp_of_mem ?_ (hLle.and hLne)
  intro a b ha hb hab
  obtain ⟨hle, hne⟩ := hab
  have hca : a.1.1 = g.1 := by
    rw [hg2] at ha
    have h' := (List.mem_filter.mp ha).2
    rwa [decide_eq_true_eq] at h'
  have hcb : b.1.1 = g.1 := by
    rw [hg2] at hb
    have h' := (List.mem_filter.mp hb).2
    rwa [decide_eq_true_eq] at h'
  unfold leCatDate at hle
  rw [Bool.or_eq_true, Bool.and_eq_true, decide_eq_true_eq,
    decide_eq_true_eq] at hle
  rcases hle with hlt | ⟨hceq, hdle⟩
  · rw [hca, hcb, catLtB_irrefl] at hlt
    cases hlt
  · rcases hdle with hlt | heq
    · exact hlt
    · exact absurd (Prod.ext hceq heq) hne

/-- **C6 amended** Under the store model, where `$push` preserves the
order established by the preceding `$sort` (category ascending, date
ascending), every per-category history sequence returned by
`get_historic_expenses` has strictly increasing bucket dates. The
engine itself performs no re-sort after the store's aggregation, so
the guarantee comes from the modelled store contract, not from a
defensive boundary sort. -/
theorem history_buckets_sorted (db : DB) (u : String) (to_date : Date)
    (months : Int) :
    (getOk (get_historic_expenses db u to_date months) []).Forall
      histSorted := by
  rw [List.forall_iff_forall_mem]
  exact fun h hm =>
    read_history_buckets_sorted db u (subMonths to_date months) to_date h hm

/-! ### Validation behaviour of the handlers (C7) -/

/-- **C7 counterexample** With non-positive `months` / `top` neither
handler raises `ValidationError`: the store query is issued and a
normal result returned. With `months = 0` the single-day window
`[to_date, to_date]` is queried and its record returned; with
`top = 0` the stats query still aggregates every matching record. -/
theorem no_validation_cex :
    get_historic_expenses dbEx "u" ⟨2024, 3, 16⟩ 0 =
      Except.ok [⟨Category.car, [⟨⟨⟨2024, 3, 16⟩, 0⟩, 3⟩]⟩] ∧
    get_monthly_statistics dbEx "u" ⟨2024, 3, 16⟩ 0 =
      Except.ok ⟨8, [⟨Category.car, 3, []⟩, ⟨Category.food, 5, []⟩]⟩ ∧
    get_historic_expenses dbEx "u" ⟨2024, 3, 16⟩ 0 ≠
      Except.error ApiError.validationError ∧
    get_monthly_statistics dbEx "u" ⟨2024, 3, 16⟩ 0 ≠
      Except.error ApiError.validationError := by
  refine ⟨?_, ?_, by simp [get_historic_expenses],
    by simp [get_monthly_statistics]⟩
  · simp +decide [get_historic_expenses, DBService.read_history,
      read_history_format, read_history_aggregate, histBuckets, groupPush,
      insertGroup, sortLe, insertStable, leCatDate, matchRange, dayStart,
      dayEnd, subMonths, dbEx]
  · simp +decide [get_monthly_statistics, DBService.read_stats, groupPush,
      insertGroup, sortLe, insertStable, leCatSum, matchRange, dayStart,
      dayEnd, firstOfMonth, sliceN, dbEx]
    norm_num

/-- **C7 amended** The handlers perform no positivity validation of
`months` / `top`: for non-positive values the calls still succeed
(never `ValidationError`), the store query is issued over the computed
window, and `monthtotal` still sums every matching record because `top`
only truncates the per-category lists. -/
theorem no_validation_passthrough (db : DB) (u : String) (to_date : Date)
    (months top : Int) (hm : months ≤ 0) (ht : top ≤ 0) :
    get_historic_expenses db u to_date months =
      Except.ok (DBService.read_history db u (subMonths to_date months)
        to_date) ∧
    get_historic_expenses db u to_date months ≠
      Except.error ApiError.validationError ∧
    get_monthly_statistics db u to_date top ≠
      Except.error ApiError.validationError ∧
    (getOk (get_monthly_statistics db u to_date top) ⟨0, []⟩).monthtotal
      = ((db.entries.filter
          (matchRange u (firstOfMonth to_date) to_date)).map
          (fun e => e.expense.sum)).sum :=
  ⟨rfl, by simp [get_historic_expenses], by simp [get_monthly_statistics],
    read_stats_fst db u (firstOfMonth to_date) to_date top⟩

theorem no_validation_passthrough_witness :
    (0 : Int) ≤ 0 ∧
    get_historic_expenses dbEx "u" ⟨2024, 3, 16⟩ 0 =
      Except.ok (DBService.read_history dbEx "u"
        (subMonths ⟨2024, 3, 16⟩ 0) ⟨2024, 3, 16⟩) :=
  ⟨le_refl 0,
    (no_validation_passthrough dbEx "u" ⟨2024, 3, 16⟩ 0 0 (le_refl 0)
      (le_refl 0)).1⟩

/-! ### Empty windows (C8) -/

/-- **C8** A window with zero matching records is a successful empty
result for all three read operations: an empty list for `/recent` and
`/history`, and a zero `monthtotal` with an empty stats list for
`/monthstats`. None of them produces an error on absence of records. -/
theorem empty_window_ok (db : DB) (u : String) (to_date : Date)
    (months top : Int)
    (h1 : db.entries.filter (matchRange u (firstOfMonth to_date) to_date)
      = [])
    (h2 : db.entries.filter
      (matchRange u (subMonths to_date months) to_date) = []) :
    get_recent_expenses db u to_date = Except.ok [] ∧
    get_historic_expenses db u to_date months = Except.ok [] ∧
    get_monthly_statistics db u to_date top = Except.ok ⟨0, []⟩ := by
  refine ⟨?_, ?_, ?_⟩
  · unfold get_recent_expenses DBService.read_expenses
    rw [h1]
    rfl
  · unfold get_historic_expenses DBService.read_history
      read_history_aggregate histBuckets read_history_format
    rw [h2]
    rfl
  · unfold get_monthly_statistics DBService.read_stats
    rw [h1]
    rfl

theorem empty_window_ok_witness :
    ((⟨[], 0⟩ : DB).entries.filter
        (matchRange "u" (firstOfMonth ⟨2024, 3, 15⟩) ⟨2024, 3, 15⟩)
      = []) ∧
    get_recent_expenses ⟨[], 0⟩ "u" ⟨2024, 3, 15⟩ = Except.ok [] ∧
    get_historic_expenses ⟨[], 0⟩ "u" ⟨2024, 3, 15⟩ 3 = Except.ok [] ∧
    get_monthly_statistics ⟨[], 0⟩ "u" ⟨2024, 3, 15⟩ 3 =
      Except.ok ⟨0, []⟩ := by
  have h := empty_window_ok ⟨[], 0⟩ "u" ⟨2024, 3, 15⟩ 3 3 rfl rfl
  exact ⟨rfl, h.1, h.2.1, h.2.2⟩

/-! ### Round-trip (C9) -/

/-- **C9** Round-trip: after `add_expense` persists the submission
`("Coffee", 4.50, 2024-03-10, Food)` for an owner, the persisted record
equals the submission with only the generated id added (and the date
normalized to midnight UTC), and `get_recent` for `2024-03-15` returns
that record exactly once. -/
theorem roundtrip_coffee (db : DB) (u : String) (hwf : DB.WF db) :
    (DBService.add_expense db u
      ⟨"Coffee", 9/2, ⟨2024, 3, 10⟩, Category.food⟩).2
      = ⟨db.nextId, "Coffee", 9/2, ⟨⟨2024, 3, 10⟩, 0⟩, Category.food⟩ ∧
    (getOk (get_recent_expenses
        (DBService.add_expense db u
          ⟨"Coffee", 9/2, ⟨2024, 3, 10⟩, Category.food⟩).1 u
        ⟨2024, 3, 15⟩) []).count
      (DBService.add_expense db u
        ⟨"Coffee", 9/2, ⟨2024, 3, 10⟩, Category.food⟩).2 = 1 := by
  refine ⟨rfl, ?_⟩
  show (DBService.read_expenses
      ⟨db.entries ++
        [⟨db.nextId, u, ⟨"Coffee", 9/2, ⟨⟨2024, 3, 10⟩, 0⟩,
          Category.food⟩⟩], db.nextId + 1⟩
      u ⟨2024, 3, 1⟩ ⟨2024, 3, 15⟩).count
    (entryOut ⟨db.nextId, u, ⟨"Coffee", 9/2, ⟨⟨2024, 3, 10⟩, 0⟩,
      Category.food⟩⟩) = 1
  unfold DBService.read_expenses
  rw [List.count, List.countP_map]
  rw [(sortLe_perm _ _).countP_eq]
  rw [List.countP_filter]
  show List.countP _ (db.entries ++ [_]) = 1
  rw [List.countP_append]
  have hz : db.entries.countP
      (fun a =>
        ((fun b => b == entryOut ⟨db.nextId, u,
            ⟨"Coffee", 9/2, ⟨⟨2024, 3, 10⟩, 0⟩, Category.food⟩⟩) ∘
          entryOut) a &&
        matchRange u ⟨2024, 3, 1⟩ ⟨2024, 3, 15⟩ a) = 0 := by
    rw [List.countP_eq_zero]
    intro e he hc
    rw [Bool.and_eq_true] at hc
    have h1 := hc.1
    rw [Function.comp_apply, beq_iff_eq] at h1
    have h2 : e.eid = db.nextId := congrArg ExpenseOut.id h1
    exact absurd h2 (Nat.ne_of_lt (hwf.2.1 e he))
  rw [hz]
  simp +decide [List.countP_cons, matchRange, dayStart, dayEnd]

theorem roundtrip_coffee_witness :
    DB.WF dbEx ∧
    (DBService.add_expense dbEx "u"
      ⟨"Coffee", 9/2, ⟨2024, 3, 10⟩, Category.food⟩).2
      = ⟨dbEx.nextId, "Coffee", 9/2, ⟨⟨2024, 3, 10⟩, 0⟩, Category.food⟩ ∧
    (getOk (get_recent_expenses
        (DBService.add_expense dbEx "u"
          ⟨"Coffee", 9/2, ⟨2024, 3, 10⟩, Category.food⟩).1 "u"
        ⟨2024, 3, 15⟩) []).count
      (DBService.add_expense dbEx "u"
        ⟨"Coffee", 9/2, ⟨2024, 3, 10⟩, Category.food⟩).2 = 1 := by
  have h := roundtrip_coffee dbEx "u" (by decide)
  exact ⟨by decide, h.1, h.2⟩
